import Mathlib

/-!
Shallow embedding of the `procgenlib` repository.

Embedded source files:
* `src/worldgenlib/synthesis/_diamond_square.py` — the diamond-square heightfield
  synthesis routine `diamond_square`.  Machine floats are modelled by an arbitrary
  field `K` (instantiated with `ℝ` in the theorems); the numpy array `h` is a
  total function on `ℕ × ℕ` of which only the allocated rectangle is ever used;
  the stateful `np.random.Generator` is an oracle giving the value of the n-th
  variate of each kind, together with an explicit count of consumed draws; the
  sequential numpy stores become a left fold of single-cell stores.  `np.sqrt(2)`
  is passed in as the `sqrt2` parameter so that the definitions stay polymorphic;
  every theorem instantiates it with `Real.sqrt 2`.
* `src/procgenlib/input/elevmodel.py` — the `HgtTileProvider.__call__` tile
  loader.  The filesystem and the zip/file readers are oracles; only the path
  arithmetic and the branch structure are embedded.
-/

namespace Procgen

/-- Elevation grid: values indexed by row and column.  The program only reads and
writes indices inside the allocated shape, so a total function is a faithful model
of the numpy array (unused cells keep the `np.zeros` value). -/
abbrev Grid (K : Type) := Nat → Nat → K

/-- Single store `h[q.1, q.2] = v`. -/
def setCell {K : Type} (g : Grid K) (q : Nat × Nat) (v : K) : Grid K :=
  fun a b => if a = q.1 ∧ b = q.2 then v else g a b

/-- Sequential loop of stores: for each index record `p` of `l` in order, store at
cell `wcell p` the value `wval g p` computed from the grid as mutated so far. -/
def applyWrites {K : Type} {α : Type} (wcell : α → Nat × Nat) (wval : Grid K → α → K)
    (l : List α) (g : Grid K) : Grid K :=
  l.foldl (fun acc p => setCell acc (wcell p) (wval acc p)) g

/-- Row-major enumeration of the pairs (i, j) with i < m, j < n, as produced by
`np.ndindex((m, n))` (lines 41 and 52 of `_diamond_square.py`). -/
def idxPairs (m n : Nat) : List (Nat × Nat) :=
  (List.range m).flatMap (fun i => (List.range n).map (fun j => (i, j)))

/-- Python `range(a, b, 2)` (lines 70 and 72 of `_diamond_square.py`). -/
def range2 (a b : Nat) : List Nat :=
  (List.range ((b - a + 1) / 2)).map (fun t => a + 2 * t)

/-- Grid coordinate of lattice point (i, j) at stride sz: the store targets of the
corner initialization (line 42) and of the square step (line 84). -/
def latticeCell (sz : Nat) (p : Nat × Nat) : Nat × Nat := (p.1 * sz, p.2 * sz)

/-- Center cell written by the diamond step for square (i, j)
(`h[i * sz + sz // 2, j * sz + sz // 2]`, line 61). -/
def diamondCell (sz : Nat) (p : Nat × Nat) : Nat × Nat :=
  (p.1 * sz + sz / 2, p.2 * sz + sz / 2)

/-- The only in-function failure the source can raise inside `diamond_square`:
the `assert sz % 2 == 0` on line 49. -/
inductive DSError : Type
  | assertionFailed
deriving DecidableEq

/-- Result of the refinement loop (lines 48-86): the grid on success or the
assertion failure, together with two ghost traces read off the execution: one
record `(sz, scale used by the diamond step, scale used by the square step)` per
loop iteration, and the list of all cells written, in order. -/
structure LoopOut (K : Type) where
  result : Except DSError (Grid K)
  levels : List (Nat × K × K)
  writes : List (Nat × Nat)

/-- Stateful random generator, as the oracle giving the value of each draw: a call
`rng.exponential(scale=s)` consumes one draw per array cell and the cell with flat
(row-major) position n receives `exponential s n`; a call `rng.normal(size=shape)`
likewise receives `normal n` at overall draw position n.  Draw positions advance
sequentially across calls, which models the sequential consumption of the stream. -/
structure RNG (K : Type) where
  exponential : K → Nat → K
  normal : Nat → K

/-- Result of `diamond_square`: the returned grid (or the assertion failure), the
allocated shape, the per-level scale trace, the ordered list of all cells written
(corner initialization first, then the loop), and the total number of random
variates consumed from the generator. -/
structure DSOut (K : Type) where
  result : Except DSError (Grid K)
  rows : Nat
  cols : Nat
  levels : List (Nat × K × K)
  writes : List (Nat × Nat)
  draws : Nat

section DiamondSquareDefs

variable {K : Type} [Field K]

/-- Value stored by the diamond step at the center of square (i, j): the mean of
the four corners of the square plus `current_scale * randoms[center]`
(lines 53-61 of `_diamond_square.py`). -/
def diamondVal (randoms : Grid K) (currentScale : K) (sz : Nat) (g : Grid K)
    (p : Nat × Nat) : K :=
  (g (p.1 * sz) (p.2 * sz) + g (p.1 * sz) ((p.2 + 1) * sz) +
      g ((p.1 + 1) * sz) ((p.2 + 1) * sz) + g ((p.1 + 1) * sz) (p.2 * sz)) / 4 +
    currentScale * randoms (p.1 * sz + sz / 2) (p.2 * sz + sz / 2)

/-- Diamond step over the n0 × n1 squares of the current level (lines 52-61). -/
def diamondStep (randoms : Grid K) (currentScale : K) (n0 n1 sz : Nat) (g : Grid K) :
    Grid K :=
  applyWrites (diamondCell sz) (diamondVal randoms currentScale sz) (idxPairs n0 n1) g

/-- Cells written by the diamond step, in order. -/
def diamondWrites (n0 n1 sz : Nat) : List (Nat × Nat) :=
  (idxPairs n0 n1).map (diamondCell sz)

/-- Lattice points (i, j) visited by the square step: outer loop j from 0 to n1,
inner loop i over `range(1, n0, 2)` when j is even and `range(0, n0 + 1, 2)` when
j is odd (lines 68-74 of `_diamond_square.py`). -/
def squarePoints (n0 n1 : Nat) : List (Nat × Nat) :=
  (List.range (n1 + 1)).flatMap (fun j =>
    (if j % 2 = 0 then range2 1 n0 else range2 0 (n0 + 1)).map (fun i => (i, j)))

/-- Index-space coordinates of the neighbors gathered by the square step at point
(i, j), under the source's conditions `i > 0`, `j > 0`, `i < n0 - 1`, `j < n1 - 1`
(lines 77-80); a neighbor (a, b) is read at grid coordinate (a·sz, b·sz). -/
def squareNborCells (n0 n1 : Nat) (i j : Nat) : List (Nat × Nat) :=
  (if 0 < i then [(i - 1, j)] else []) ++
    (if 0 < j then [(i, j - 1)] else []) ++
      (if i < n0 - 1 then [(i + 1, j)] else []) ++
        (if j < n1 - 1 then [(i, j + 1)] else [])

/-- Value stored by the square step at point p: `np.nanmean` of the gathered
neighbors — the mean of the values that were not replaced by the NaN sentinel —
plus `current_scale * randoms[i * sz, j * sz]` (lines 76-84). -/
def squareVal (randoms : Grid K) (currentScale : K) (n0 n1 sz : Nat) (g : Grid K)
    (p : Nat × Nat) : K :=
  let ns := (squareNborCells n0 n1 p.1 p.2).map (fun q => g (q.1 * sz) (q.2 * sz))
  ns.sum / (ns.length : K) + currentScale * randoms (p.1 * sz) (p.2 * sz)

/-- Square step over the doubled n0 × n1 lattice of the current level
(lines 68-84). -/
def squareStep (randoms : Grid K) (currentScale : K) (n0 n1 sz : Nat) (g : Grid K) :
    Grid K :=
  applyWrites (latticeCell sz) (squareVal randoms currentScale n0 n1 sz)
    (squarePoints n0 n1) g

/-- Cells written by the square step, in order. -/
def squareWrites (n0 n1 sz : Nat) : List (Nat × Nat) :=
  (squarePoints n0 n1).map (latticeCell sz)

/-- The refinement loop `while sz >= 2` (lines 48-86): assert that sz is even,
run the diamond step, double `num_squares`, halve sz, decay the scale by `sqrt2`,
run the square step, decay the scale again, and continue. -/
def dsLoop (sqrt2 : K) (randoms : Grid K) (sz n0 n1 : Nat) (currentScale : K)
    (g : Grid K) : LoopOut K :=
  if _h2 : 2 ≤ sz then
    if sz % 2 = 0 then
      let g1 := diamondStep randoms currentScale n0 n1 sz g
      let n0x := n0 * 2
      let n1x := n1 * 2
      let szx := sz / 2
      let cs1 := currentScale / sqrt2
      let g2 := squareStep randoms cs1 n0x n1x szx g1
      let rest := dsLoop sqrt2 randoms szx n0x n1x (cs1 / sqrt2) g2
      ⟨rest.result, (sz, currentScale, cs1) :: rest.levels,
        (diamondWrites n0 n1 sz ++ squareWrites n0x n1x szx) ++ rest.writes⟩
    else ⟨Except.error DSError.assertionFailed, [], []⟩
  else ⟨Except.ok g, [], []⟩
termination_by sz
decreasing_by exact Nat.div_lt_self (by omega) (by omega)

/-- Corner values of lines 32-35: `corner_scale` samples `primary_scale` at the
stride-sz lattice (the strided slice of lines 32-34), and corner (i, j) receives
`base_level` plus the exponential variate of scale `corner_scale[i, j]` drawn at
flat position i·(C+1)+j of the (R+1)×(C+1) batch. -/
def cornerValuesOf (rng : RNG K) (sz : Nat) (num_squares : Nat × Nat)
    (primary_scale : Grid K) (base_level : K) : Grid K :=
  fun i j =>
    base_level +
      rng.exponential (primary_scale (i * sz) (j * sz)) (i * (num_squares.2 + 1) + j)

/-- The displacement field of line 38:
`randoms = primary_scale * roughness * rng.normal(size=primary_scale.shape)`,
where cell (i, j) of the rows×cols normal batch is the draw at flat position
i·cols+j, consumed after the (R+1)·(C+1) draws of the corner batch. -/
def randomsOf (rng : RNG K) (sz : Nat) (num_squares : Nat × Nat)
    (primary_scale roughness : Grid K) : Grid K :=
  fun i j =>
    primary_scale i j * roughness i j *
      rng.normal ((num_squares.1 + 1) * (num_squares.2 + 1) +
        i * (num_squares.2 * sz + 1) + j)

/-- Corner initialization of lines 41-42: starting from the `np.zeros` grid,
store `corner_values[i, j]` at every lattice point (i·sz, j·sz). -/
def cornerInitOf (rng : RNG K) (sz : Nat) (num_squares : Nat × Nat)
    (primary_scale : Grid K) (base_level : K) : Grid K :=
  applyWrites (latticeCell sz)
    (fun _ p => cornerValuesOf rng sz num_squares primary_scale base_level p.1 p.2)
    (idxPairs (num_squares.1 + 1) (num_squares.2 + 1)) (fun _ _ => 0)

/-- The function `diamond_square` of `_diamond_square.py`.  `primary_scale` and
`roughness` are taken in their normalized full-grid form (the scalar-broadcast /
shape-assert preamble of lines 20-29 only normalizes them to that form).  The
corner batch `rng.exponential(scale=corner_scale)` consumes (R+1)·(C+1) draws, the
displacement batch `rng.normal(size=primary_scale.shape)` consumes rows·cols
further draws; both batches are consumed before the refinement loop runs, so they
are counted in `draws` even when the loop raises the assertion error. -/
def diamond_square (sqrt2 : K) (rng : RNG K) (square_size : Nat)
    (num_squares : Nat × Nat) (primary_scale roughness : Grid K) (base_level : K) :
    DSOut K :=
  let sz := square_size
  let rows := num_squares.1 * sz + 1
  let cols := num_squares.2 * sz + 1
  let lo := dsLoop sqrt2 (randomsOf rng sz num_squares primary_scale roughness) sz
    num_squares.1 num_squares.2 sqrt2
    (cornerInitOf rng sz num_squares primary_scale base_level)
  ⟨lo.result, rows, cols, lo.levels,
    (idxPairs (num_squares.1 + 1) (num_squares.2 + 1)).map (latticeCell sz) ++ lo.writes,
    (num_squares.1 + 1) * (num_squares.2 + 1) + rows * cols⟩

/-- Grid carried by a successful loop result (zero grid on failure). -/
def LoopOut.grid (o : LoopOut K) : Grid K :=
  match o.result with
  | Except.ok g => g
  | Except.error _ => fun _ _ => 0

/-- Grid returned by a successful run (zero grid on failure). -/
def DSOut.grid (o : DSOut K) : Grid K :=
  match o.result with
  | Except.ok g => g
  | Except.error _ => fun _ _ => 0

end DiamondSquareDefs

/-- Whether an `Except` result is a success. -/
def isOkB {E A : Type} : Except E A → Bool
  | Except.ok _ => true
  | Except.error _ => false

/-- Constant grid, used as a concrete test input. -/
def constGrid (c : ℝ) : Grid ℝ := fun _ _ => c

/-- Concrete random stream producing only zeros, used as a test input. -/
def rngZero : RNG ℝ := ⟨fun _ _ => 0, fun _ => 0⟩

/-! Embedding of `HgtTileProvider.__call__` from `src/procgenlib/input/elevmodel.py`. -/

/-- Supported elevation data file formats (the `Format` enum of `elevmodel.py`). -/
inductive Format : Type
  | hgt
  | zip
deriving DecidableEq

/-- Elevation tile: a rows × cols array of int16 elevation values, with the int16
values modelled as integers. -/
structure Tile where
  rows : Nat
  cols : Nat
  val : Nat → Nat → Int

/-- The `np.zeros((3601, 3601), dtype=np.int16)` tile of line 58. -/
def zeroTile : Tile := ⟨3601, 3601, fun _ _ => 0⟩

/-- The `np.flip(tile_data, axis=0)` of line 71: reverse the row order. -/
def flipTile (t : Tile) : Tile := ⟨t.rows, t.cols, fun i j => t.val (t.rows - 1 - i) j⟩

/-- Left-pad the decimal digits of a natural number with zeros to width w
(the zero fill of a Python `0wd` format). -/
def padNat (w : Nat) (n : Nat) : String :=
  let s := toString n
  String.mk (List.replicate (w - s.length) '0') ++ s

/-- Python `f-string` formatting of an integer with a `0wd` spec: the sign counts
toward the width and the zeros go after it. -/
def padInt (w : Nat) (n : Int) : String :=
  if n < 0 then "-" ++ padNat (w - 1) (-n).toNat else padNat w n.toNat

/-- Latitude part of the tile name (lines 37-40). -/
def latString (lat : Int) : String :=
  if 0 ≤ lat then "n" ++ padInt 2 lat else "s" ++ padInt 2 (-lat + 1)

/-- Longitude part of the tile name (lines 42-45). -/
def lonString (lon : Int) : String :=
  if 0 ≤ lon then "e" ++ padInt 3 lon else "w" ++ padInt 3 (-lon + 1)

/-- Configuration held by an `HgtTileProvider` instance (constructor, lines 30-34). -/
structure HgtTileProvider where
  path : String
  format : Format
  caseConvention : String
  zipPattern : String

/-- Case-adjusted latitude and longitude strings (lines 47-49). -/
def HgtTileProvider.latLon (self : HgtTileProvider) (lat lon : Int) : String × String :=
  let latS := latString lat
  let lonS := lonString lon
  if self.caseConvention == "upper" then (latS.toUpper, lonS.toUpper) else (latS, lonS)

/-- The zip archive path `self._path / self._zip_pattern.format(lat=.., lon=..)`
of line 54. -/
def HgtTileProvider.zipPath (self : HgtTileProvider) (lat lon : Int) : String :=
  let ll := self.latLon lat lon
  self.path ++ "/" ++ ((self.zipPattern.replace ("{lat}") ll.1).replace ("{lon}") ll.2)

/-- The method `HgtTileProvider.__call__` (lines 36-71).  `fsExists` is the
filesystem oracle for `zip_path.exists()`; `readZipEntry zipPath filename` and
`readFile path` are oracles for reading and decoding the big-endian int16 raster
from the zip member or the plain file. -/
def HgtTileProvider.call (self : HgtTileProvider) (fsExists : String → Bool)
    (readZipEntry : String → String → Tile) (readFile : String → Tile)
    (lat lon : Int) : Tile :=
  let ll := self.latLon lat lon
  let filename := ll.1 ++ ll.2 ++ ".hgt"
  match self.format with
  | Format.zip =>
      if fsExists (self.zipPath lat lon) = false then zeroTile
      else flipTile (readZipEntry (self.zipPath lat lon) filename)
  | Format.hgt => flipTile (readFile (self.path ++ "/" ++ filename))

/-! Basic lemmas about stores and the index lists. -/

theorem setCell_same {K : Type} (g : Grid K) (q : Nat × Nat) (v : K) :
    setCell g q v q.1 q.2 = v := by
  simp [setCell]

theorem setCell_other {K : Type} (g : Grid K) (q r : Nat × Nat) (v : K) (h : q ≠ r) :
    setCell g q v r.1 r.2 = g r.1 r.2 := by
  have : ¬(r.1 = q.1 ∧ r.2 = q.2) := by
    intro hc
    exact h (Prod.ext hc.1.symm hc.2.symm)
  simp [setCell, this]

/-- Frame rule: a fold of stores leaves every cell that none of them targets
unchanged. -/
theorem applyWrites_frame {K : Type} {α : Type} (wcell : α → Nat × Nat)
    (wval : Grid K → α → K) (l : List α) (g : Grid K) (r : Nat × Nat)
    (hr : ∀ p ∈ l, wcell p ≠ r) :
    applyWrites wcell wval l g r.1 r.2 = g r.1 r.2 := by
  induction l generalizing g with
  | nil => rfl
  | cons p l ih =>
      have hstep : setCell g (wcell p) (wval g p) r.1 r.2 = g r.1 r.2 :=
        setCell_other _ _ _ _ (hr p (List.mem_cons_self p l))
      calc applyWrites wcell wval (p :: l) g r.1 r.2
          = applyWrites wcell wval l (setCell g (wcell p) (wval g p)) r.1 r.2 := rfl
        _ = setCell g (wcell p) (wval g p) r.1 r.2 :=
            ih _ (fun q hq => hr q (List.mem_cons_of_mem p hq))
        _ = g r.1 r.2 := hstep

theorem applyWrites_append {K : Type} {α : Type} (wcell : α → Nat × Nat)
    (wval : Grid K → α → K) (l1 l2 : List α) (g : Grid K) :
    applyWrites wcell wval (l1 ++ l2) g
      = applyWrites wcell wval l2 (applyWrites wcell wval l1 g) := by
  simp [applyWrites, List.foldl_append]

/-- Value rule: if the elements after `p` all target cells other than `p`'s cell,
then the final value at `p`'s cell is the value computed for `p` from the grid
accumulated over the elements before `p`. -/
theorem applyWrites_split_value {K : Type} {α : Type} (wcell : α → Nat × Nat)
    (wval : Grid K → α → K) (l1 : List α) (p : α) (l2 : List α) (g : Grid K)
    (hlater : ∀ r ∈ l2, wcell r ≠ wcell p) :
    applyWrites wcell wval (l1 ++ p :: l2) g (wcell p).1 (wcell p).2
      = wval (applyWrites wcell wval l1 g) p := by
  set g1 := applyWrites wcell wval l1 g with hg1
  have hstep : applyWrites wcell wval (p :: l2) g1
      = applyWrites wcell wval l2 (setCell g1 (wcell p) (wval g1 p)) := rfl
  rw [applyWrites_append, ← hg1, hstep,
    applyWrites_frame wcell wval l2 _ (wcell p) hlater,
    setCell_same]

theorem mem_idxPairs {m n : Nat} {p : Nat × Nat} :
    p ∈ idxPairs m n ↔ p.1 < m ∧ p.2 < n := by
  cases p with
  | mk i j =>
      simp only [idxPairs, List.mem_flatMap, List.mem_map, List.mem_range]
      constructor
      · rintro ⟨a, ha, b, hb, hab⟩
        cases hab
        exact ⟨ha, hb⟩
      · rintro ⟨hi, hj⟩
        exact ⟨i, hi, j, hj, rfl⟩

theorem mem_range2 {a b x : Nat} :
    x ∈ range2 a b ↔ a ≤ x ∧ x < b ∧ (x - a) % 2 = 0 := by
  simp only [range2, List.mem_map, List.mem_range]
  constructor
  · rintro ⟨t, ht, rfl⟩
    omega
  · rintro ⟨h1, h2, h3⟩
    exact ⟨(x - a) / 2, by omega, by omega⟩

/-- Nodup of a flat map whose blocks are separated by a key function. -/
theorem nodup_flatMap_key {α β : Type} (key : α → β) (l : List β) (f : β → List α)
    (hl : l.Nodup) (hblock : ∀ b, (f b).Nodup) (hkey : ∀ b, ∀ p ∈ f b, key p = b) :
    (l.flatMap f).Nodup := by
  induction l with
  | nil => simp
  | cons b l ih =>
      rw [List.flatMap_cons]
      refine List.Nodup.append (hblock b) (ih (List.Nodup.of_cons hl)) ?_
      intro p hp hp2
      rw [List.mem_flatMap] at hp2
      obtain ⟨c, hc, hpc⟩ := hp2
      have hb : key p = b := hkey b p hp
      have hcb : key p = c := hkey c p hpc
      have hbc : b = c := hb.symm.trans hcb
      exact (List.nodup_cons.mp hl).1 (hbc ▸ hc)

theorem idxPairs_nodup (m n : Nat) : (idxPairs m n).Nodup := by
  refine nodup_flatMap_key Prod.fst (List.range m) _ (List.nodup_range m) ?_ ?_
  · intro i
    exact List.Nodup.map (fun a b hab => by simpa using hab) (List.nodup_range n)
  · intro i p hp
    rw [List.mem_map] at hp
    obtain ⟨j, _, rfl⟩ := hp
    rfl

theorem range2_nodup (a b : Nat) : (range2 a b).Nodup :=
  List.Nodup.map (fun s t hst => by omega) (List.nodup_range _)

theorem squarePoints_nodup (n0 n1 : Nat) : (squarePoints n0 n1).Nodup := by
  refine nodup_flatMap_key Prod.snd (List.range (n1 + 1)) _ (List.nodup_range _) ?_ ?_
  · intro j
    exact List.Nodup.map (fun a b hab => by simpa using hab) (by
      by_cases hj : j % 2 = 0 <;> simp [hj, range2_nodup])
  · intro j p hp
    rw [List.mem_map] at hp
    obtain ⟨i, _, rfl⟩ := hp
    rfl

/-- Membership in the square-step point list: with an even n0 (as always holds in
the loop, where n0 was just doubled) the visited points are exactly the
checkerboard points of odd coordinate sum. -/
theorem mem_squarePoints {n0 n1 : Nat} (hn0 : n0 % 2 = 0) {i j : Nat} :
    (i, j) ∈ squarePoints n0 n1 ↔ i ≤ n0 ∧ j ≤ n1 ∧ (i + j) % 2 = 1 := by
  simp only [squarePoints, List.mem_flatMap, List.mem_map, List.mem_range]
  constructor
  · rintro ⟨b, hb, a, ha, hab⟩
    cases hab
    by_cases hj : j % 2 = 0
    · rw [if_pos hj] at ha
      rw [mem_range2] at ha
      omega
    · rw [if_neg hj] at ha
      rw [mem_range2] at ha
      omega
  · rintro ⟨hi, hj, hpar⟩
    refine ⟨j, by omega, i, ?_, rfl⟩
    by_cases hjp : j % 2 = 0
    · rw [if_pos hjp, mem_range2]
      omega
    · rw [if_neg hjp, mem_range2]
      omega

/-- Every point visited by the square step has odd coordinate sum, whatever the
bounds are. -/
theorem squarePoints_parity {n0 n1 : Nat} {p : Nat × Nat}
    (hp : p ∈ squarePoints n0 n1) : (p.1 + p.2) % 2 = 1 := by
  cases p with
  | mk i j =>
      simp only [squarePoints, List.mem_flatMap, List.mem_map, List.mem_range] at hp
      obtain ⟨b, _, a, ha, hab⟩ := hp
      cases hab
      by_cases hj : j % 2 = 0
      · rw [if_pos hj, mem_range2] at ha
        omega
      · rw [if_neg hj, mem_range2] at ha
        omega

/-! Cell geometry lemmas. -/

theorem latticeCell_injective {sz : Nat} (h1 : 1 ≤ sz) :
    Function.Injective (latticeCell sz) := by
  intro p q h
  have e1 : p.1 * sz = q.1 * sz := congrArg Prod.fst h
  have e2 : p.2 * sz = q.2 * sz := congrArg Prod.snd h
  have f1 : p.1 = q.1 := Nat.eq_of_mul_eq_mul_right (by omega) e1
  have f2 : p.2 = q.2 := Nat.eq_of_mul_eq_mul_right (by omega) e2
  exact Prod.ext f1 f2

theorem diamondCell_injective {sz : Nat} (h1 : 1 ≤ sz) :
    Function.Injective (diamondCell sz) := by
  intro p q h
  have e1 : p.1 * sz + sz / 2 = q.1 * sz + sz / 2 := congrArg Prod.fst h
  have e2 : p.2 * sz + sz / 2 = q.2 * sz + sz / 2 := congrArg Prod.snd h
  have f1 : p.1 = q.1 :=
    Nat.eq_of_mul_eq_mul_right (by omega) (Nat.add_right_cancel e1)
  have f2 : p.2 = q.2 :=
    Nat.eq_of_mul_eq_mul_right (by omega) (Nat.add_right_cancel e2)
  exact Prod.ext f1 f2

/-- A diamond-step center is never a lattice point of the same stride: its row is
congruent to sz / 2 modulo sz. -/
theorem diamondCell_ne_lattice {sz : Nat} (h2 : 2 ≤ sz) (p q : Nat × Nat) :
    diamondCell sz p ≠ latticeCell sz q := by
  intro h
  have h1 : p.1 * sz + sz / 2 = q.1 * sz := congrArg Prod.fst h
  have hm1 : (p.1 * sz + sz / 2) % sz = sz / 2 := by
    rw [Nat.add_comm, Nat.add_mul_mod_self_right]
    exact Nat.mod_eq_of_lt (by omega)
  have hm2 : (q.1 * sz) % sz = 0 := Nat.mul_mod_left _ _
  rw [h1, hm2] at hm1
  omega

/-! Characterization of a single diamond-step value. -/

section StepValues

variable {K : Type} [Field K]

/-- What one diamond-step store computes: the final value at the center of square
(i, j) is the mean of the four corners of the incoming grid plus the scaled
displacement.  The other squares' stores at this level touch neither this center
nor the corners it reads. -/
theorem diamondStep_value (randoms : Grid K) (cs : K) (n0 n1 sz : Nat) (g : Grid K)
    (i j : Nat) (h2 : 2 ≤ sz) (hi : i < n0) (hj : j < n1) :
    diamondStep randoms cs n0 n1 sz g (i * sz + sz / 2) (j * sz + sz / 2)
      = (g (i * sz) (j * sz) + g (i * sz) ((j + 1) * sz) +
            g ((i + 1) * sz) ((j + 1) * sz) + g ((i + 1) * sz) (j * sz)) / 4 +
          cs * randoms (i * sz + sz / 2) (j * sz + sz / 2) := by
  have hmem : ((i, j) : Nat × Nat) ∈ idxPairs n0 n1 := mem_idxPairs.mpr ⟨hi, hj⟩
  obtain ⟨l1, l2, hsplit⟩ := List.append_of_mem hmem
  have hnd : (l1 ++ (i, j) :: l2).Nodup := hsplit ▸ idxPairs_nodup n0 n1
  have hnotl2 : ((i, j) : Nat × Nat) ∉ l2 :=
    (List.nodup_cons.mp (List.nodup_append.mp hnd).2.1).1
  have hlater : ∀ r ∈ l2, diamondCell sz r ≠ diamondCell sz (i, j) := by
    intro r hr he
    exact hnotl2 (diamondCell_injective (by omega) he ▸ hr)
  have hkey := applyWrites_split_value (diamondCell sz) (diamondVal randoms cs sz)
    l1 (i, j) l2 g hlater
  have hframe : ∀ q : Nat × Nat,
      applyWrites (diamondCell sz) (diamondVal randoms cs sz) l1 g
          (q.1 * sz) (q.2 * sz) = g (q.1 * sz) (q.2 * sz) := by
    intro q
    exact applyWrites_frame _ _ l1 g (latticeCell sz q)
      (fun r _ => diamondCell_ne_lattice h2 r q)
  calc diamondStep randoms cs n0 n1 sz g (i * sz + sz / 2) (j * sz + sz / 2)
      = applyWrites (diamondCell sz) (diamondVal randoms cs sz) (l1 ++ (i, j) :: l2) g
          (i * sz + sz / 2) (j * sz + sz / 2) := by
        rw [diamondStep, hsplit]
    _ = diamondVal randoms cs sz
          (applyWrites (diamondCell sz) (diamondVal randoms cs sz) l1 g) (i, j) := hkey
    _ = (g (i * sz) (j * sz) + g (i * sz) ((j + 1) * sz) +
            g ((i + 1) * sz) ((j + 1) * sz) + g ((i + 1) * sz) (j * sz)) / 4 +
          cs * randoms (i * sz + sz / 2) (j * sz + sz / 2) := by
        show (_ + _ + _ + _) / 4 + _ = _
        rw [hframe (i, j), hframe (i, j + 1), hframe (i + 1, j + 1), hframe (i + 1, j)]

/-- Explicit description of the neighbor cells gathered by the square step. -/
theorem mem_squareNborCells {n0 n1 i j : Nat} {q : Nat × Nat} :
    q ∈ squareNborCells n0 n1 i j ↔
      (0 < i ∧ q = (i - 1, j)) ∨ (0 < j ∧ q = (i, j - 1)) ∨
        (i < n0 - 1 ∧ q = (i + 1, j)) ∨ (j < n1 - 1 ∧ q = (i, j + 1)) := by
  by_cases h1 : 0 < i <;> by_cases h2 : 0 < j <;> by_cases h3 : i < n0 - 1 <;>
    by_cases h4 : j < n1 - 1 <;>
      simp [squareNborCells, h1, h2, h3, h4]

/-- Neighbors of a checkerboard point have even coordinate sum. -/
theorem squareNborCells_parity {n0 n1 i j : Nat} (hij : (i + j) % 2 = 1)
    {q : Nat × Nat} (hq : q ∈ squareNborCells n0 n1 i j) : (q.1 + q.2) % 2 = 0 := by
  rcases mem_squareNborCells.mp hq with ⟨h, rfl⟩ | ⟨h, rfl⟩ | ⟨h, rfl⟩ | ⟨h, rfl⟩ <;>
    simp <;> omega

/-- What one square-step store computes: the final value at lattice point (i, j) is
the mean of the gathered neighbor values of the incoming grid plus the scaled
displacement.  All stores of the square step target odd-parity points, while all
the cells it reads have even parity, so no neighbor read sees a value written
during the same square step. -/
theorem squareStep_value (randoms : Grid K) (cs : K) (n0 n1 sz : Nat) (g : Grid K)
    (i j : Nat) (h1 : 1 ≤ sz) (hmem : (i, j) ∈ squarePoints n0 n1) :
    squareStep randoms cs n0 n1 sz g (i * sz) (j * sz)
      = ((squareNborCells n0 n1 i j).map (fun q => g (q.1 * sz) (q.2 * sz))).sum /
          (((squareNborCells n0 n1 i j).map (fun q => g (q.1 * sz) (q.2 * sz))).length : K)
          + cs * randoms (i * sz) (j * sz) := by
  obtain ⟨l1, l2, hsplit⟩ := List.append_of_mem hmem
  have hnd : (l1 ++ (i, j) :: l2).Nodup := hsplit ▸ squarePoints_nodup n0 n1
  have hnotl2 : ((i, j) : Nat × Nat) ∉ l2 :=
    (List.nodup_cons.mp (List.nodup_append.mp hnd).2.1).1
  have hlater : ∀ r ∈ l2, latticeCell sz r ≠ latticeCell sz (i, j) := by
    intro r hr he
    exact hnotl2 (latticeCell_injective (by omega) he ▸ hr)
  have hkey := applyWrites_split_value (latticeCell sz)
    (squareVal randoms cs n0 n1 sz) l1 (i, j) l2 g hlater
  have hl1mem : ∀ r ∈ l1, r ∈ squarePoints n0 n1 := by
    intro r hr
    rw [hsplit]
    exact List.mem_append.mpr (Or.inl hr)
  have hframe : ∀ q ∈ squareNborCells n0 n1 i j,
      applyWrites (latticeCell sz) (squareVal randoms cs n0 n1 sz) l1 g
          (q.1 * sz) (q.2 * sz) = g (q.1 * sz) (q.2 * sz) := by
    intro q hq
    refine applyWrites_frame _ _ l1 g (latticeCell sz q) ?_
    intro r hr he
    have hrq : r = q := latticeCell_injective (by omega) he
    have hpar1 : (r.1 + r.2) % 2 = 1 := squarePoints_parity (hl1mem r hr)
    have hpar0 : (q.1 + q.2) % 2 = 0 :=
      squareNborCells_parity (by simpa using squarePoints_parity hmem) hq
    rw [hrq] at hpar1
    omega
  calc squareStep randoms cs n0 n1 sz g (i * sz) (j * sz)
      = applyWrites (latticeCell sz) (squareVal randoms cs n0 n1 sz)
          (l1 ++ (i, j) :: l2) g (i * sz) (j * sz) := by
        rw [squareStep, hsplit]
    _ = squareVal randoms cs n0 n1 sz
          (applyWrites (latticeCell sz) (squareVal randoms cs n0 n1 sz) l1 g) (i, j) :=
        hkey
    _ = _ := by
        show (List.map _ _).sum / _ + _ = _
        rw [List.map_congr_left (fun q hq => by rw [hframe q hq])]

end StepValues

/-! Characterizations of the write-position lists. -/

section WriteLists

variable {K : Type} [Field K]

theorem mem_diamondWrites {n0 n1 sz x y : Nat} :
    (x, y) ∈ diamondWrites n0 n1 sz ↔
      ∃ i j, i < n0 ∧ j < n1 ∧ x = i * sz + sz / 2 ∧ y = j * sz + sz / 2 := by
  simp only [diamondWrites, List.mem_map]
  constructor
  · rintro ⟨⟨i, j⟩, hp, he⟩
    have hij := mem_idxPairs.mp hp
    have he2 := Prod.ext_iff.mp he
    exact ⟨i, j, hij.1, hij.2, he2.1.symm, he2.2.symm⟩
  · rintro ⟨i, j, hi, hj, rfl, rfl⟩
    exact ⟨(i, j), mem_idxPairs.mpr ⟨hi, hj⟩, rfl⟩

theorem mem_squareWrites {n0 n1 sz x y : Nat} (hn0 : n0 % 2 = 0) :
    (x, y) ∈ squareWrites n0 n1 sz ↔
      ∃ i j, i ≤ n0 ∧ j ≤ n1 ∧ (i + j) % 2 = 1 ∧ x = i * sz ∧ y = j * sz := by
  simp only [squareWrites, List.mem_map]
  constructor
  · rintro ⟨⟨i, j⟩, hp, he⟩
    have hij := (mem_squarePoints hn0).mp hp
    have he2 := Prod.ext_iff.mp he
    exact ⟨i, j, hij.1, hij.2.1, hij.2.2, he2.1.symm, he2.2.symm⟩
  · rintro ⟨i, j, hi, hj, hpar, rfl, rfl⟩
    exact ⟨(i, j), (mem_squarePoints hn0).mpr ⟨hi, hj, hpar⟩, rfl⟩

theorem diamondWrites_nodup {n0 n1 sz : Nat} (h1 : 1 ≤ sz) :
    (diamondWrites n0 n1 sz).Nodup :=
  List.Nodup.map (diamondCell_injective h1) (idxPairs_nodup n0 n1)

theorem squareWrites_nodup {n0 n1 sz : Nat} (h1 : 1 ≤ sz) :
    (squareWrites n0 n1 sz).Nodup :=
  List.Nodup.map (latticeCell_injective h1) (squarePoints_nodup n0 n1)

/-- Diamond-step write positions at stride 2p, in divisibility form: both
coordinates are odd multiples of p, within bounds. -/
theorem diamondWrites_char {n0 n1 p x y : Nat} (hp : 0 < p) :
    (x, y) ∈ diamondWrites n0 n1 (2 * p) ↔
      p ∣ x ∧ p ∣ y ∧ (x / p) % 2 = 1 ∧ (y / p) % 2 = 1 ∧
        x ≤ n0 * (2 * p) ∧ y ≤ n1 * (2 * p) := by
  rw [mem_diamondWrites]
  have hhalf : 2 * p / 2 = p := by omega
  constructor
  · rintro ⟨i, j, hi, hj, rfl, rfl⟩
    rw [hhalf]
    have hx : i * (2 * p) + p = p * (2 * i + 1) := by ring
    have hy : j * (2 * p) + p = p * (2 * j + 1) := by ring
    rw [hx, hy]
    refine ⟨⟨2 * i + 1, rfl⟩, ⟨2 * j + 1, rfl⟩, ?_, ?_, ?_, ?_⟩
    · rw [Nat.mul_div_cancel_left _ hp]; omega
    · rw [Nat.mul_div_cancel_left _ hp]; omega
    · have : n0 * (2 * p) = p * (2 * n0) := by ring
      rw [this]
      exact (mul_le_mul_left hp).mpr (by omega)
    · have : n1 * (2 * p) = p * (2 * n1) := by ring
      rw [this]
      exact (mul_le_mul_left hp).mpr (by omega)
  · rintro ⟨⟨a, rfl⟩, ⟨b, rfl⟩, hox, hoy, hbx, hby⟩
    rw [Nat.mul_div_cancel_left _ hp] at hox
    rw [Nat.mul_div_cancel_left _ hp] at hoy
    have hax : p * a ≤ p * (2 * n0) := by
      have : n0 * (2 * p) = p * (2 * n0) := by ring
      rw [this] at hbx
      exact hbx
    have hay : p * b ≤ p * (2 * n1) := by
      have : n1 * (2 * p) = p * (2 * n1) := by ring
      rw [this] at hby
      exact hby
    have ha2 : a ≤ 2 * n0 := (mul_le_mul_left hp).mp hax
    have hb2 : b ≤ 2 * n1 := (mul_le_mul_left hp).mp hay
    refine ⟨a / 2, b / 2, by omega, by omega, ?_, ?_⟩
    · have ha : a = 2 * (a / 2) + 1 := by omega
      rw [hhalf]
      calc p * a = p * (2 * (a / 2) + 1) := by rw [← ha]
        _ = a / 2 * (2 * p) + p := by ring
    · have hb : b = 2 * (b / 2) + 1 := by omega
      rw [hhalf]
      calc p * b = p * (2 * (b / 2) + 1) := by rw [← hb]
        _ = b / 2 * (2 * p) + p := by ring

/-- Square-step write positions at stride p, in divisibility form: both
coordinates are multiples of p whose quotients have odd sum, within bounds. -/
theorem squareWrites_char {n0 n1 p x y : Nat} (hp : 0 < p) (hn0 : n0 % 2 = 0) :
    (x, y) ∈ squareWrites n0 n1 p ↔
      p ∣ x ∧ p ∣ y ∧ (x / p + y / p) % 2 = 1 ∧ x ≤ n0 * p ∧ y ≤ n1 * p := by
  rw [mem_squareWrites hn0]
  constructor
  · rintro ⟨i, j, hi, hj, hpar, rfl, rfl⟩
    have hx : i * p = p * i := by ring
    have hy : j * p = p * j := by ring
    rw [hx, hy]
    refine ⟨⟨i, rfl⟩, ⟨j, rfl⟩, ?_, ?_, ?_⟩
    · rw [Nat.mul_div_cancel_left _ hp, Nat.mul_div_cancel_left _ hp]
      exact hpar
    · have : n0 * p = p * n0 := by ring
      rw [this]
      exact (mul_le_mul_left hp).mpr hi
    · have : n1 * p = p * n1 := by ring
      rw [this]
      exact (mul_le_mul_left hp).mpr hj
  · rintro ⟨⟨a, rfl⟩, ⟨b, rfl⟩, hpar, hbx, hby⟩
    rw [Nat.mul_div_cancel_left _ hp, Nat.mul_div_cancel_left _ hp] at hpar
    have ha2 : a ≤ n0 := by
      have : n0 * p = p * n0 := by ring
      rw [this] at hbx
      exact (mul_le_mul_left hp).mp hbx
    have hb2 : b ≤ n1 := by
      have : n1 * p = p * n1 := by ring
      rw [this] at hby
      exact (mul_le_mul_left hp).mp hby
    exact ⟨a, b, ha2, hb2, hpar, by ring, by ring⟩

/-- Corner-initialization write positions at stride sz: all lattice points
(i·sz, j·sz) with i ≤ R, j ≤ C, i.e. both coordinates multiples of sz within
bounds. -/
theorem cornerWrites_char {R C sz x y : Nat} (hsz : 0 < sz) :
    (x, y) ∈ (idxPairs (R + 1) (C + 1)).map (latticeCell sz) ↔
      sz ∣ x ∧ sz ∣ y ∧ x ≤ R * sz ∧ y ≤ C * sz := by
  simp only [List.mem_map]
  constructor
  · rintro ⟨⟨i, j⟩, hp, he⟩
    have hij := mem_idxPairs.mp hp
    simp only [latticeCell, Prod.mk.injEq] at he
    obtain ⟨hex, hey⟩ := he
    subst hex
    subst hey
    refine ⟨⟨i, by ring⟩, ⟨j, by ring⟩, ?_, ?_⟩
    · exact Nat.mul_le_mul_right sz (by omega)
    · exact Nat.mul_le_mul_right sz (by omega)
  · rintro ⟨⟨a, rfl⟩, ⟨b, rfl⟩, hbx, hby⟩
    refine ⟨(a, b), mem_idxPairs.mpr ⟨?_, ?_⟩, by simp [latticeCell]; constructor <;> ring⟩
    · have : R * sz = sz * R := by ring
      rw [this] at hbx
      have := (mul_le_mul_left hsz).mp hbx
      omega
    · have : C * sz = sz * C := by ring
      rw [this] at hby
      have := (mul_le_mul_left hsz).mp hby
      omega

end WriteLists

/-! Unfolding lemmas for the refinement loop. -/

section LoopLemmas

variable {K : Type} [Field K]

theorem dsLoop_base (sqrt2 : K) (randoms : Grid K) (sz n0 n1 : Nat) (cs : K)
    (g : Grid K) (hlt : sz < 2) :
    dsLoop sqrt2 randoms sz n0 n1 cs g = ⟨Except.ok g, [], []⟩ := by
  rw [dsLoop]
  rw [dif_neg (by omega)]

theorem dsLoop_assert (sqrt2 : K) (randoms : Grid K) (sz n0 n1 : Nat) (cs : K)
    (g : Grid K) (h2 : 2 ≤ sz) (hodd : sz % 2 = 1) :
    dsLoop sqrt2 randoms sz n0 n1 cs g
      = ⟨Except.error DSError.assertionFailed, [], []⟩ := by
  rw [dsLoop]
  rw [dif_pos h2, if_neg (by omega)]

theorem dsLoop_step (sqrt2 : K) (randoms : Grid K) (sz n0 n1 : Nat) (cs : K)
    (g : Grid K) (h2 : 2 ≤ sz) (hev : sz % 2 = 0) :
    dsLoop sqrt2 randoms sz n0 n1 cs g
      = ⟨(dsLoop sqrt2 randoms (sz / 2) (n0 * 2) (n1 * 2) (cs / sqrt2 / sqrt2)
            (squareStep randoms (cs / sqrt2) (n0 * 2) (n1 * 2) (sz / 2)
              (diamondStep randoms cs n0 n1 sz g))).result,
          (sz, cs, cs / sqrt2) ::
            (dsLoop sqrt2 randoms (sz / 2) (n0 * 2) (n1 * 2) (cs / sqrt2 / sqrt2)
              (squareStep randoms (cs / sqrt2) (n0 * 2) (n1 * 2) (sz / 2)
                (diamondStep randoms cs n0 n1 sz g))).levels,
          (diamondWrites n0 n1 sz ++ squareWrites (n0 * 2) (n1 * 2) (sz / 2)) ++
            (dsLoop sqrt2 randoms (sz / 2) (n0 * 2) (n1 * 2) (cs / sqrt2 / sqrt2)
              (squareStep randoms (cs / sqrt2) (n0 * 2) (n1 * 2) (sz / 2)
                (diamondStep randoms cs n0 n1 sz g))).writes⟩ := by
  rw [dsLoop]
  rw [dif_pos h2, if_pos hev]

theorem LoopOut.grid_mk (o : LoopOut K) (ls : List (Nat × K × K))
    (ws : List (Nat × Nat)) : (LoopOut.mk o.result ls ws).grid = o.grid := rfl

/-- A diamond center row a·2^(m+1) + 2^m is never divisible by 2^(m+1). -/
theorem not_dvd_center {m a : Nat} : ¬ 2 ^ (m + 1) ∣ a * 2 ^ (m + 1) + 2 ^ m := by
  intro h
  have h1 : 2 ^ (m + 1) ∣ a * 2 ^ (m + 1) := ⟨a, by ring⟩
  have h2 : 2 ^ (m + 1) ∣ 2 ^ m := (Nat.dvd_add_right h1).mp h
  have hpos : 1 ≤ 2 ^ m := Nat.one_le_two_pow
  have h3 := Nat.le_of_dvd (by omega) h2
  have h4 := pow_succ 2 m
  omega

/-- If 2^(m+1) divides r·2^m then r is even. -/
theorem even_quot_of_dvd {m r : Nat} (h : 2 ^ (m + 1) ∣ r * 2 ^ m) : r % 2 = 0 := by
  obtain ⟨c, hc⟩ := h
  have hpos : 0 < 2 ^ m := by
    have : 1 ≤ 2 ^ m := Nat.one_le_two_pow
    omega
  have h2 : r * 2 ^ m = 2 * c * 2 ^ m := by
    rw [hc, pow_succ]
    ring
  have : r = 2 * c := Nat.eq_of_mul_eq_mul_right hpos h2
  omega

/-- For a power-of-two square size the loop never hits the assertion: it always
returns its grid. -/
theorem dsLoop_pow2_ok (sqrt2 : K) (randoms : Grid K) (m : Nat) :
    ∀ (n0 n1 : Nat) (cs : K) (g : Grid K),
      (dsLoop sqrt2 randoms (2 ^ m) n0 n1 cs g).result
        = Except.ok ((dsLoop sqrt2 randoms (2 ^ m) n0 n1 cs g).grid) := by
  induction m with
  | zero =>
      intro n0 n1 cs g
      rw [dsLoop_base sqrt2 randoms (2 ^ 0) n0 n1 cs g (by norm_num)]
      rfl
  | succ m ih =>
      intro n0 n1 cs g
      have hps := pow_succ 2 m
      have h2 : 2 ≤ 2 ^ (m + 1) := Nat.one_lt_two_pow (by omega)
      have hev : 2 ^ (m + 1) % 2 = 0 := by omega
      have hhalf : 2 ^ (m + 1) / 2 = 2 ^ m := by omega
      rw [dsLoop_step sqrt2 randoms (2 ^ (m + 1)) n0 n1 cs g h2 hev]
      rw [hhalf]
      rw [LoopOut.grid_mk]
      exact ih (n0 * 2) (n1 * 2) (cs / sqrt2 / sqrt2) _

/-- Frame property of the loop run at square size 2^m: cells whose coordinates
are both multiples of 2^m are never written, hence keep their incoming value. -/
theorem dsLoop_pow2_frame (sqrt2 : K) (randoms : Grid K) (m : Nat) :
    ∀ (n0 n1 : Nat) (cs : K) (g : Grid K) (x y : Nat),
      2 ^ m ∣ x → 2 ^ m ∣ y →
      (dsLoop sqrt2 randoms (2 ^ m) n0 n1 cs g).grid x y = g x y := by
  induction m with
  | zero =>
      intro n0 n1 cs g x y _ _
      rw [dsLoop_base sqrt2 randoms (2 ^ 0) n0 n1 cs g (by norm_num)]
      rfl
  | succ m ih =>
      intro n0 n1 cs g x y hx hy
      have hps := pow_succ 2 m
      have h2 : 2 ≤ 2 ^ (m + 1) := Nat.one_lt_two_pow (by omega)
      have hev : 2 ^ (m + 1) % 2 = 0 := by omega
      have hhalf : 2 ^ (m + 1) / 2 = 2 ^ m := by omega
      have hdvdstep : (2 : Nat) ^ m ∣ 2 ^ (m + 1) := ⟨2, hps⟩
      have hx2 : 2 ^ m ∣ x := dvd_trans hdvdstep hx
      have hy2 : 2 ^ m ∣ y := dvd_trans hdvdstep hy
      rw [dsLoop_step sqrt2 randoms (2 ^ (m + 1)) n0 n1 cs g h2 hev]
      rw [hhalf, LoopOut.grid_mk]
      rw [ih (n0 * 2) (n1 * 2) (cs / sqrt2 / sqrt2) _ x y hx2 hy2]
      have hsq : squareStep randoms (cs / sqrt2) (n0 * 2) (n1 * 2) (2 ^ m)
          (diamondStep randoms cs n0 n1 (2 ^ (m + 1)) g) x y
          = diamondStep randoms cs n0 n1 (2 ^ (m + 1)) g x y := by
        refine applyWrites_frame _ _ _ _ (x, y) ?_
        intro r hr he
        have hex : r.1 * 2 ^ m = x := congrArg Prod.fst he
        have hey : r.2 * 2 ^ m = y := congrArg Prod.snd he
        have hr1 : r.1 % 2 = 0 := even_quot_of_dvd (m := m) (hex ▸ hx)
        have hr2 : r.2 % 2 = 0 := even_quot_of_dvd (m := m) (hey ▸ hy)
        have hodd := squarePoints_parity hr
        omega
      rw [hsq]
      refine applyWrites_frame _ _ _ _ (x, y) ?_
      intro r _ he
      have hex : r.1 * 2 ^ (m + 1) + 2 ^ (m + 1) / 2 = x := congrArg Prod.fst he
      rw [hhalf] at hex
      exact not_dvd_center (m := m) (a := r.1) (hex ▸ hx)

/-- For a square size that is not a power of two, the loop always trips the
evenness assertion. -/
theorem dsLoop_not_pow2 (sqrt2 : K) (randoms : Grid K) :
    ∀ sz : Nat, 1 ≤ sz → (∀ t < sz, sz ≠ 2 ^ t) →
      ∀ (n0 n1 : Nat) (cs : K) (g : Grid K),
        (dsLoop sqrt2 randoms sz n0 n1 cs g).result
          = Except.error DSError.assertionFailed := by
  intro sz
  induction sz using Nat.strong_induction_on with
  | _ sz ih =>
      intro h1 hnp n0 n1 cs g
      by_cases h2 : 2 ≤ sz
      · by_cases hev : sz % 2 = 0
        · rw [dsLoop_step sqrt2 randoms sz n0 n1 cs g h2 hev]
          refine ih (sz / 2) (by omega) (by omega) ?_ (n0 * 2) (n1 * 2) _ _
          intro t ht heq
          have hps := pow_succ 2 t
          have hlt := Nat.lt_two_pow (t + 1)
          exact hnp (t + 1) (by omega) (by omega)
        · rw [dsLoop_assert sqrt2 randoms sz n0 n1 cs g h2 (by omega)]
      · exfalso
        have hsz1 : sz = 1 := by omega
        exact hnp 0 (by omega) (by rw [hsz1, pow_zero])

theorem div_div_pow (c s : K) (t : Nat) : c / s / s / s ^ t = c / s ^ (t + 2) := by
  rw [div_div, div_div]
  congr 1
  ring

/-- Scale trace of the loop at square size 2^m: there is one level per halving,
level t enters with square size 2^(m-t), its diamond step uses cs / sqrt2^(2t)
and its square step uses cs / sqrt2^(2t+1). -/
theorem dsLoop_pow2_levels (sqrt2 : K) (randoms : Grid K) (m : Nat) :
    ∀ (n0 n1 : Nat) (cs : K) (g : Grid K),
      (dsLoop sqrt2 randoms (2 ^ m) n0 n1 cs g).levels.length = m ∧
        ∀ t, t < m →
          (dsLoop sqrt2 randoms (2 ^ m) n0 n1 cs g).levels[t]?
            = some (2 ^ (m - t), cs / sqrt2 ^ (2 * t), cs / sqrt2 ^ (2 * t + 1)) := by
  induction m with
  | zero =>
      intro n0 n1 cs g
      rw [dsLoop_base sqrt2 randoms (2 ^ 0) n0 n1 cs g (by norm_num)]
      exact ⟨rfl, fun t ht => absurd ht (by omega)⟩
  | succ m ih =>
      intro n0 n1 cs g
      have hps := pow_succ 2 m
      have h2 : 2 ≤ 2 ^ (m + 1) := Nat.one_lt_two_pow (by omega)
      have hev : 2 ^ (m + 1) % 2 = 0 := by omega
      have hhalf : 2 ^ (m + 1) / 2 = 2 ^ m := by omega
      rw [dsLoop_step sqrt2 randoms (2 ^ (m + 1)) n0 n1 cs g h2 hev, hhalf]
      obtain ⟨ihlen, ihget⟩ := ih (n0 * 2) (n1 * 2) (cs / sqrt2 / sqrt2)
        (squareStep randoms (cs / sqrt2) (n0 * 2) (n1 * 2) (2 ^ m)
          (diamondStep randoms cs n0 n1 (2 ^ (m + 1)) g))
      constructor
      · simpa using ihlen
      · intro t ht
        cases t with
        | zero =>
            rw [List.getElem?_cons_zero]
            simp
        | succ t =>
            rw [List.getElem?_cons_succ, ihget t (by omega)]
            have he1 : m + 1 - (t + 1) = m - t := by omega
            have he2 : 2 * (t + 1) = 2 * t + 2 := by ring
            have he3 : 2 * t + 2 + 1 = 2 * t + 1 + 2 := by ring
            rw [he1, he2, he3, ← div_div_pow cs sqrt2 (2 * t),
              ← div_div_pow cs sqrt2 (2 * t + 1)]

/-- Write trace of the loop at square size 2^m: the loop writes exactly the cells
inside the grid rectangle that are not lattice points of stride 2^m, each exactly
once (the written cell list has no duplicates). -/
theorem dsLoop_pow2_writes (sqrt2 : K) (randoms : Grid K) (m : Nat) :
    ∀ (n0 n1 : Nat) (cs : K) (g : Grid K),
      (dsLoop sqrt2 randoms (2 ^ m) n0 n1 cs g).writes.Nodup ∧
        ∀ x y : Nat,
          ((x, y) ∈ (dsLoop sqrt2 randoms (2 ^ m) n0 n1 cs g).writes ↔
            x ≤ n0 * 2 ^ m ∧ y ≤ n1 * 2 ^ m ∧ ¬(2 ^ m ∣ x ∧ 2 ^ m ∣ y)) := by
  induction m with
  | zero =>
      intro n0 n1 cs g
      rw [dsLoop_base sqrt2 randoms (2 ^ 0) n0 n1 cs g (by norm_num)]
      refine ⟨List.nodup_nil, ?_⟩
      intro x y
      simp
  | succ m ih =>
      intro n0 n1 cs g
      have hps := pow_succ 2 m
      have hp : 0 < 2 ^ m := by
        have : 1 ≤ 2 ^ m := Nat.one_le_two_pow
        omega
      have h2 : 2 ≤ 2 ^ (m + 1) := Nat.one_lt_two_pow (by omega)
      have hev : 2 ^ (m + 1) % 2 = 0 := by omega
      have hhalf : 2 ^ (m + 1) / 2 = 2 ^ m := by omega
      have hpow : (2 : Nat) ^ (m + 1) = 2 * 2 ^ m := by omega
      rw [dsLoop_step sqrt2 randoms (2 ^ (m + 1)) n0 n1 cs g h2 hev, hhalf, hpow]
      obtain ⟨ihnd, ihmem⟩ := ih (n0 * 2) (n1 * 2) (cs / sqrt2 / sqrt2)
        (squareStep randoms (cs / sqrt2) (n0 * 2) (n1 * 2) (2 ^ m)
          (diamondStep randoms cs n0 n1 (2 * 2 ^ m) g))
      have ha1 : n0 * 2 * 2 ^ m = n0 * (2 * 2 ^ m) := by ring
      have ha2 : n1 * 2 * 2 ^ m = n1 * (2 * 2 ^ m) := by ring
      constructor
      · refine List.Nodup.append (List.Nodup.append ?_ ?_ ?_) ihnd ?_
        · exact diamondWrites_nodup (by omega)
        · exact squareWrites_nodup (by omega)
        · intro a hd hs
          obtain ⟨x, y⟩ := a
          rw [diamondWrites_char hp] at hd
          rw [squareWrites_char hp (by omega)] at hs
          obtain ⟨-, -, hox, hoy, -, -⟩ := hd
          obtain ⟨-, -, hsum, -, -⟩ := hs
          omega
        · intro a ha hr
          obtain ⟨x, y⟩ := a
          rw [List.mem_append] at ha
          rw [ihmem x y] at hr
          refine hr.2.2 ?_
          rcases ha with hd | hs
          · rw [diamondWrites_char hp] at hd
            exact ⟨hd.1, hd.2.1⟩
          · rw [squareWrites_char hp (by omega)] at hs
            exact ⟨hs.1, hs.2.1⟩
      · intro x y
        rw [List.mem_append, List.mem_append, diamondWrites_char hp,
          squareWrites_char hp (by omega), ihmem x y, ha1, ha2]
        constructor
        · rintro ((⟨hdx, hdy, hox, hoy, hbx, hby⟩ | ⟨hdx, hdy, hsum, hbx, hby⟩) |
            ⟨hbx, hby, hnd⟩)
          · refine ⟨hbx, hby, ?_⟩
            rintro ⟨h2x, -⟩
            obtain ⟨a, rfl⟩ := hdx
            rw [Nat.mul_div_cancel_left _ hp] at hox
            obtain ⟨b, hb⟩ := h2x
            have hab : a = 2 * b :=
              Nat.eq_of_mul_eq_mul_left hp (by rw [hb]; ring)
            omega
          · refine ⟨hbx, hby, ?_⟩
            rintro ⟨h2x, h2y⟩
            obtain ⟨a, rfl⟩ := hdx
            obtain ⟨b, rfl⟩ := hdy
            rw [Nat.mul_div_cancel_left _ hp, Nat.mul_div_cancel_left _ hp] at hsum
            obtain ⟨c, hc⟩ := h2x
            obtain ⟨d, hd⟩ := h2y
            have hac : a = 2 * c :=
              Nat.eq_of_mul_eq_mul_left hp (by rw [hc]; ring)
            have hbd : b = 2 * d :=
              Nat.eq_of_mul_eq_mul_left hp (by rw [hd]; ring)
            omega
          · refine ⟨hbx, hby, ?_⟩
            rintro ⟨h2x, h2y⟩
            refine hnd ⟨?_, ?_⟩
            · exact dvd_trans ⟨2, by ring⟩ h2x
            · exact dvd_trans ⟨2, by ring⟩ h2y
        · rintro ⟨hbx, hby, hnd⟩
          by_cases hdx : 2 ^ m ∣ x
          · by_cases hdy : 2 ^ m ∣ y
            · obtain ⟨a, rfl⟩ := hdx
              obtain ⟨b, rfl⟩ := hdy
              by_cases hoa : a % 2 = 1
              · by_cases hob : b % 2 = 1
                · refine Or.inl (Or.inl ⟨⟨a, rfl⟩, ⟨b, rfl⟩, ?_, ?_, hbx, hby⟩)
                  · rw [Nat.mul_div_cancel_left _ hp]
                    exact hoa
                  · rw [Nat.mul_div_cancel_left _ hp]
                    exact hob
                · refine Or.inl (Or.inr ⟨⟨a, rfl⟩, ⟨b, rfl⟩, ?_, hbx, hby⟩)
                  rw [Nat.mul_div_cancel_left _ hp, Nat.mul_div_cancel_left _ hp]
                  omega
              · by_cases hob : b % 2 = 1
                · refine Or.inl (Or.inr ⟨⟨a, rfl⟩, ⟨b, rfl⟩, ?_, hbx, hby⟩)
                  rw [Nat.mul_div_cancel_left _ hp, Nat.mul_div_cancel_left _ hp]
                  omega
                · exfalso
                  refine hnd ⟨⟨a / 2, ?_⟩, ⟨b / 2, ?_⟩⟩
                  · have haev : a = 2 * (a / 2) := by omega
                    calc 2 ^ m * a = 2 ^ m * (2 * (a / 2)) := by rw [← haev]
                      _ = 2 * 2 ^ m * (a / 2) := by ring
                  · have hbev : b = 2 * (b / 2) := by omega
                    calc 2 ^ m * b = 2 ^ m * (2 * (b / 2)) := by rw [← hbev]
                      _ = 2 * 2 ^ m * (b / 2) := by ring
            · refine Or.inr ⟨hbx, hby, ?_⟩
              rintro ⟨-, hcy⟩
              exact hdy hcy
          · refine Or.inr ⟨hbx, hby, ?_⟩
            rintro ⟨hcx, -⟩
            exact hdx hcx

end LoopLemmas

/-! Lemmas about the top-level function. -/

section TopLevel

variable {K : Type} [Field K]

theorem diamond_square_result (sqrt2 : K) (rng : RNG K) (S R C : Nat)
    (ps rough : Grid K) (base : K) :
    (diamond_square sqrt2 rng S (R, C) ps rough base).result
      = (dsLoop sqrt2 (randomsOf rng S (R, C) ps rough) S R C sqrt2
          (cornerInitOf rng S (R, C) ps base)).result := rfl

theorem diamond_square_grid (sqrt2 : K) (rng : RNG K) (S R C : Nat)
    (ps rough : Grid K) (base : K) :
    (diamond_square sqrt2 rng S (R, C) ps rough base).grid
      = (dsLoop sqrt2 (randomsOf rng S (R, C) ps rough) S R C sqrt2
          (cornerInitOf rng S (R, C) ps base)).grid := rfl

theorem diamond_square_levels (sqrt2 : K) (rng : RNG K) (S R C : Nat)
    (ps rough : Grid K) (base : K) :
    (diamond_square sqrt2 rng S (R, C) ps rough base).levels
      = (dsLoop sqrt2 (randomsOf rng S (R, C) ps rough) S R C sqrt2
          (cornerInitOf rng S (R, C) ps base)).levels := rfl

theorem diamond_square_writes (sqrt2 : K) (rng : RNG K) (S R C : Nat)
    (ps rough : Grid K) (base : K) :
    (diamond_square sqrt2 rng S (R, C) ps rough base).writes
      = (idxPairs (R + 1) (C + 1)).map (latticeCell S) ++
        (dsLoop sqrt2 (randomsOf rng S (R, C) ps rough) S R C sqrt2
          (cornerInitOf rng S (R, C) ps base)).writes := rfl

theorem diamond_square_draws (sqrt2 : K) (rng : RNG K) (S R C : Nat)
    (ps rough : Grid K) (base : K) :
    (diamond_square sqrt2 rng S (R, C) ps rough base).draws
      = (R + 1) * (C + 1) + (R * S + 1) * (C * S + 1) := rfl

theorem diamond_square_shape (sqrt2 : K) (rng : RNG K) (S R C : Nat)
    (ps rough : Grid K) (base : K) :
    (diamond_square sqrt2 rng S (R, C) ps rough base).rows = R * S + 1 ∧
      (diamond_square sqrt2 rng S (R, C) ps rough base).cols = C * S + 1 :=
  ⟨rfl, rfl⟩

/-- The corner initialization stores exactly the corner values: distinct targets,
value independent of the accumulated grid. -/
theorem cornerInitOf_value (rng : RNG K) (sz : Nat) (nsq : Nat × Nat)
    (ps : Grid K) (base : K) (i j : Nat) (h1 : 1 ≤ sz) (hi : i ≤ nsq.1)
    (hj : j ≤ nsq.2) :
    cornerInitOf rng sz nsq ps base (i * sz) (j * sz)
      = cornerValuesOf rng sz nsq ps base i j := by
  have hmem : ((i, j) : Nat × Nat) ∈ idxPairs (nsq.1 + 1) (nsq.2 + 1) :=
    mem_idxPairs.mpr ⟨by omega, by omega⟩
  obtain ⟨l1, l2, hsplit⟩ := List.append_of_mem hmem
  have hnd : (l1 ++ (i, j) :: l2).Nodup := hsplit ▸ idxPairs_nodup _ _
  have hnotl2 : ((i, j) : Nat × Nat) ∉ l2 :=
    (List.nodup_cons.mp (List.nodup_append.mp hnd).2.1).1
  have hlater : ∀ r ∈ l2, latticeCell sz r ≠ latticeCell sz (i, j) := by
    intro r hr he
    exact hnotl2 (latticeCell_injective h1 he ▸ hr)
  calc cornerInitOf rng sz nsq ps base (i * sz) (j * sz)
      = applyWrites (latticeCell sz)
          (fun _ p => cornerValuesOf rng sz nsq ps base p.1 p.2)
          (l1 ++ (i, j) :: l2) (fun _ _ => 0) (i * sz) (j * sz) := by
        rw [cornerInitOf, hsplit]
    _ = cornerValuesOf rng sz nsq ps base i j :=
        applyWrites_split_value (latticeCell sz) _ l1 (i, j) l2 _ hlater

end TopLevel

/-! Claim theorems. -/

/-- C2 (counterexample): for square_size = 3, num_squares = (1, 1), the function
does not fail eagerly at entry: it fails with the in-loop AssertionError, and by
that point the exponential corner batch (4 draws) and the full-grid normal batch
(16 draws) have already been consumed — 20 draws, not 0.  There is no
InvalidSquareSize error anywhere in the code: `DSError` has the assertion failure
as its only inhabitant. -/
theorem square_size_three_late_failure_cex :
    (diamond_square (Real.sqrt 2) rngZero 3 (1, 1) (constGrid 1) (constGrid 1)
        0).result = Except.error DSError.assertionFailed ∧
      (diamond_square (Real.sqrt 2) rngZero 3 (1, 1) (constGrid 1) (constGrid 1)
        0).draws = 20 ∧ (20 : Nat) ≠ 0 := by
  refine ⟨?_, ?_, by norm_num⟩
  · rw [diamond_square_result]
    exact dsLoop_not_pow2 (Real.sqrt 2) _ 3 (by norm_num) (by decide) 1 1 _ _
  · rw [diamond_square_draws]

/-- C2 (amended): for every square_size ≥ 1 that is not a power of two (any
num_squares), `diamond_square` fails with the AssertionError raised by the
mid-loop `assert sz % 2 == 0`, and the failure happens only after allocation and
after both random batches have been consumed: the draw count at failure is the
full (R+1)·(C+1) + (R·S+1)·(C·S+1), never 0. -/
theorem non_pow2_square_size_spec (S : Nat) (h1 : 1 ≤ S)
    (hnp : ∀ t < S, S ≠ 2 ^ t) (R C : Nat) (rng : RNG ℝ) (ps rough : Grid ℝ)
    (base : ℝ) :
    (diamond_square (Real.sqrt 2) rng S (R, C) ps rough base).result
        = Except.error DSError.assertionFailed ∧
      (diamond_square (Real.sqrt 2) rng S (R, C) ps rough base).draws
        = (R + 1) * (C + 1) + (R * S + 1) * (C * S + 1) := by
  refine ⟨?_, diamond_square_draws (Real.sqrt 2) rng S R C ps rough base⟩
  rw [diamond_square_result]
  exact dsLoop_not_pow2 (Real.sqrt 2) _ S h1 hnp R C _ _

/-- C2 (witness): square_size 3 at num_squares (2, 1). -/
theorem non_pow2_square_size_spec_w :
    (diamond_square (Real.sqrt 2) rngZero 3 (2, 1) (constGrid 1) (constGrid 1)
        0).result = Except.error DSError.assertionFailed ∧
      (diamond_square (Real.sqrt 2) rngZero 3 (2, 1) (constGrid 1) (constGrid 1)
        0).draws = (2 + 1) * (1 + 1) + (2 * 3 + 1) * (1 * 3 + 1) :=
  non_pow2_square_size_spec 3 (by norm_num) (by decide) 2 1 rngZero
    (constGrid 1) (constGrid 1) 0

/-- C3 (counterexample): num_squares = (0, 1) with square_size 2 (written 2^1):
the function performs no num_squares validation and returns a grid successfully
instead of failing. -/
theorem num_squares_zero_ok_cex :
    isOkB (diamond_square (Real.sqrt 2) rngZero (2 ^ 1) (0, 1) (constGrid 1)
        (constGrid 1) 0).result = true := by
  rw [diamond_square_result, dsLoop_pow2_ok]
  rfl

/-- C3 (amended): the code contains no num_squares validation and no
InvalidNumSquares failure: for num_squares = (0, C) and any power-of-two
square_size it succeeds, returning a degenerate grid of 0·S+1 = 1 row. -/
theorem num_squares_no_validation_spec (k C : Nat) (rng : RNG ℝ)
    (ps rough : Grid ℝ) (base : ℝ) :
    isOkB (diamond_square (Real.sqrt 2) rng (2 ^ k) (0, C) ps rough base).result
        = true ∧
      (diamond_square (Real.sqrt 2) rng (2 ^ k) (0, C) ps rough base).rows = 1 := by
  constructor
  · rw [diamond_square_result, dsLoop_pow2_ok]
    rfl
  · rw [(diamond_square_shape (Real.sqrt 2) rng (2 ^ k) 0 C ps rough base).1]
    simp

/-- C4: for every valid input (square_size = 2^k, num_squares = (R, C) with
R, C ≥ 1), the run succeeds and the returned grid at every coarse lattice point
(i·S, j·S), i ≤ R, j ≤ C, equals base_level plus the exponential variate drawn
with scale primary_scale[i·S, j·S] at position i·(C+1)+j of the corner batch: no
later diamond or square step overwrites a corner. -/
theorem corner_invariance_spec (k R C : Nat) (_hR : 1 ≤ R) (_hC : 1 ≤ C)
    (rng : RNG ℝ) (ps rough : Grid ℝ) (base : ℝ) (i j : Nat) (hi : i ≤ R)
    (hj : j ≤ C) :
    isOkB (diamond_square (Real.sqrt 2) rng (2 ^ k) (R, C) ps rough base).result
        = true ∧
      (diamond_square (Real.sqrt 2) rng (2 ^ k) (R, C) ps rough base).grid
          (i * 2 ^ k) (j * 2 ^ k)
        = base + rng.exponential (ps (i * 2 ^ k) (j * 2 ^ k)) (i * (C + 1) + j) := by
  constructor
  · rw [diamond_square_result, dsLoop_pow2_ok]
    rfl
  · rw [diamond_square_grid]
    rw [dsLoop_pow2_frame (Real.sqrt 2) (randomsOf rng (2 ^ k) (R, C) ps rough) k
      R C (Real.sqrt 2) (cornerInitOf rng (2 ^ k) (R, C) ps base)
      (i * 2 ^ k) (j * 2 ^ k) ⟨i, by ring⟩ ⟨j, by ring⟩]
    rw [cornerInitOf_value rng (2 ^ k) (R, C) ps base i j Nat.one_le_two_pow hi hj]
    rfl

/-- C4 (witness): k = 1, R = C = 1, corner (1, 0). -/
theorem corner_invariance_spec_w :
    isOkB (diamond_square (Real.sqrt 2) rngZero (2 ^ 1) (1, 1) (constGrid 1)
        (constGrid 1) 0).result = true ∧
      (diamond_square (Real.sqrt 2) rngZero (2 ^ 1) (1, 1) (constGrid 1)
          (constGrid 1) 0).grid (1 * 2 ^ 1) (0 * 2 ^ 1)
        = 0 + rngZero.exponential (constGrid 1 (1 * 2 ^ 1) (0 * 2 ^ 1))
            (1 * (1 + 1) + 0) :=
  corner_invariance_spec 1 1 1 (by norm_num) (by norm_num) rngZero (constGrid 1)
    (constGrid 1) 0 1 0 (by norm_num) (by norm_num)

/-- C5: in the diamond step at a level with even square size sz ≥ 2, the value
stored at the center of square (i, j) is the arithmetic mean of the four corner
values of the incoming grid plus current_scale times the displacement field at
the center coordinate. -/
theorem diamond_step_mean_spec (randoms : Grid ℝ) (cs : ℝ) (n0 n1 sz : Nat)
    (g : Grid ℝ) (i j : Nat) (h2 : 2 ≤ sz) (_hev : sz % 2 = 0) (hi : i < n0)
    (hj : j < n1) :
    diamondStep randoms cs n0 n1 sz g (i * sz + sz / 2) (j * sz + sz / 2)
      = (g (i * sz) (j * sz) + g (i * sz) ((j + 1) * sz) +
            g ((i + 1) * sz) ((j + 1) * sz) + g ((i + 1) * sz) (j * sz)) / 4 +
          cs * randoms (i * sz + sz / 2) (j * sz + sz / 2) :=
  diamondStep_value randoms cs n0 n1 sz g i j h2 hi hj

/-- C5 (witness): the single square of a 1×1 level at sz = 2, on a constant
grid. -/
theorem diamond_step_mean_spec_w :
    diamondStep (constGrid 0) 0 1 1 2 (constGrid 5) (0 * 2 + 2 / 2)
        (0 * 2 + 2 / 2)
      = (constGrid 5 (0 * 2) (0 * 2) + constGrid 5 (0 * 2) ((0 + 1) * 2) +
            constGrid 5 ((0 + 1) * 2) ((0 + 1) * 2) +
            constGrid 5 ((0 + 1) * 2) (0 * 2)) / 4 +
          0 * constGrid 0 (0 * 2 + 2 / 2) (0 * 2 + 2 / 2) :=
  diamond_step_mean_spec (constGrid 0) 0 1 1 2 (constGrid 5) 0 0 (by norm_num)
    (by norm_num) (by norm_num) (by norm_num)

/-- C1 (counterexample): at num_squares = (1, 1), square_size = 2, the single
square phase runs with doubled counts n0 = n1 = 2 and halved stride sz = 1, and
it processes exactly the four domain-edge midpoints (1,0), (0,1), (2,1), (1,2).
Each of them gathers only 2 neighbors, not 3: for (1,0) the down neighbor (2,0)
is omitted by the condition `i < num_squares[0] - 1` even though its grid row
(1+1)·sz = 2 ≤ n0·sz = 2 is inside the grid bounds, and for (0,1) the right
neighbor (0,2) is omitted by `j < num_squares[1] - 1` though it too is in
bounds. -/
theorem square_step_omits_inbounds_neighbor_cex :
    (((1, 0) : Nat × Nat) ∈ squarePoints 2 2 ∧
      ((0, 1) : Nat × Nat) ∈ squarePoints 2 2 ∧
      ((2, 1) : Nat × Nat) ∈ squarePoints 2 2 ∧
      ((1, 2) : Nat × Nat) ∈ squarePoints 2 2) ∧
    ((squareNborCells 2 2 1 0).length = 2 ∧
      (squareNborCells 2 2 0 1).length = 2 ∧
      (squareNborCells 2 2 2 1).length = 2 ∧
      (squareNborCells 2 2 1 2).length = 2) ∧
    (((1 + 1, 0) : Nat × Nat) ∉ squareNborCells 2 2 1 0 ∧ (1 + 1) * 1 ≤ 2 * 1 ∧
      ((0, 1 + 1) : Nat × Nat) ∉ squareNborCells 2 2 0 1 ∧ (1 + 1) * 1 ≤ 2 * 1) := by
  decide

/-- C1 (amended): in the square step, the value stored at processed point (i, j)
is the mean of the gathered neighbor values plus current_scale times the
displacement field at that point, where the gathered neighbors are exactly those
given by the source's conditions: up if i > 0, left if j > 0, down if
i < n0 − 1, right if j < n1 − 1.  These conditions omit every out-of-bounds
neighbor but also omit the in-bounds down neighbor when i = n0 − 1 and the
in-bounds right neighbor when j = n1 − 1, so a boundary point can average 2
values rather than 3 (as all four do at num_squares = (1,1), square_size = 2). -/
theorem square_step_gather_spec (randoms : Grid ℝ) (cs : ℝ) (n0 n1 sz : Nat)
    (g : Grid ℝ) (i j : Nat) (h1 : 1 ≤ sz) (hmem : (i, j) ∈ squarePoints n0 n1) :
    (squareStep randoms cs n0 n1 sz g (i * sz) (j * sz)
      = ((squareNborCells n0 n1 i j).map (fun q => g (q.1 * sz) (q.2 * sz))).sum /
          (((squareNborCells n0 n1 i j).map
            (fun q => g (q.1 * sz) (q.2 * sz))).length : ℝ) +
          cs * randoms (i * sz) (j * sz)) ∧
      ∀ q : Nat × Nat, q ∈ squareNborCells n0 n1 i j ↔
        (0 < i ∧ q = (i - 1, j)) ∨ (0 < j ∧ q = (i, j - 1)) ∨
          (i < n0 - 1 ∧ q = (i + 1, j)) ∨ (j < n1 - 1 ∧ q = (i, j + 1)) :=
  ⟨squareStep_value randoms cs n0 n1 sz g i j h1 hmem,
    fun _ => mem_squareNborCells⟩

/-- C1 (witness): the edge midpoint (1, 0) of the (1,1)-square grid at the
square phase (n0 = n1 = 2, sz = 1). -/
theorem square_step_gather_spec_w :
    (squareStep (constGrid 0) 0 2 2 1 (constGrid 5) (1 * 1) (0 * 1)
      = ((squareNborCells 2 2 1 0).map
          (fun q => constGrid 5 (q.1 * 1) (q.2 * 1))).sum /
          (((squareNborCells 2 2 1 0).map
            (fun q => constGrid 5 (q.1 * 1) (q.2 * 1))).length : ℝ) +
          0 * constGrid 0 (1 * 1) (0 * 1)) ∧
      ∀ q : Nat × Nat, q ∈ squareNborCells 2 2 1 0 ↔
        (0 < 1 ∧ q = (1 - 1, 0)) ∨ (0 < 0 ∧ q = (1, 0 - 1)) ∨
          (1 < 2 - 1 ∧ q = (1 + 1, 0)) ∨ (0 < 2 - 1 ∧ q = (1, 0 + 1)) :=
  square_step_gather_spec (constGrid 0) 0 2 2 1 (constGrid 5) 1 0 (by norm_num)
    (by decide)

/-- C8: at every square phase of a valid run the doubled counts n0 = 2a, n1 = 2b
satisfy a, b ≥ 1, and then every processed point gathers at least 2 neighbors
(so the mean is over a non-empty list), and every gathered neighbor is an
in-bounds lattice point (index-space coordinates within n0 and n1). -/
theorem square_neighbor_count_spec (n0 n1 a b : Nat) (ha : n0 = 2 * a)
    (hb : n1 = 2 * b) (ha1 : 1 ≤ a) (hb1 : 1 ≤ b) (i j : Nat)
    (hmem : (i, j) ∈ squarePoints n0 n1) :
    2 ≤ (squareNborCells n0 n1 i j).length ∧
      ∀ q ∈ squareNborCells n0 n1 i j, q.1 ≤ n0 ∧ q.2 ≤ n1 := by
  have hn0 : n0 % 2 = 0 := by omega
  have hij := (mem_squarePoints hn0).mp hmem
  constructor
  · by_cases h1 : 0 < i <;> by_cases h2 : 0 < j <;> by_cases h3 : i < n0 - 1 <;>
      by_cases h4 : j < n1 - 1 <;>
        simp [squareNborCells, h1, h2, h3, h4] <;> omega
  · intro q hq
    rcases mem_squareNborCells.mp hq with ⟨h, rfl⟩ | ⟨h, rfl⟩ | ⟨h, rfl⟩ |
      ⟨h, rfl⟩ <;> simp <;> omega

/-- C8 (witness): point (1, 0) at the first square phase of the (1,1) grid. -/
theorem square_neighbor_count_spec_w :
    2 ≤ (squareNborCells 2 2 1 0).length ∧
      ∀ q ∈ squareNborCells 2 2 1 0, q.1 ≤ 2 ∧ q.2 ≤ 2 :=
  square_neighbor_count_spec 2 2 1 1 rfl rfl (by norm_num) (by norm_num) 1 0
    (by decide)

/-- C6: on valid input (square_size = 2^k, R, C ≥ 1) the run succeeds (the loop
terminates with sz = 1), and the ordered list of all cells written — corner
initialization followed by all diamond and square steps — has no duplicates and
contains exactly the cells of the (R·S+1)×(C·S+1) grid: every cell is written
exactly once. -/
theorem writes_once_coverage_spec (k R C : Nat) (_hR : 1 ≤ R) (_hC : 1 ≤ C)
    (rng : RNG ℝ) (ps rough : Grid ℝ) (base : ℝ) :
    isOkB (diamond_square (Real.sqrt 2) rng (2 ^ k) (R, C) ps rough base).result
        = true ∧
      (diamond_square (Real.sqrt 2) rng (2 ^ k) (R, C) ps rough base).writes.Nodup ∧
      ∀ x y : Nat,
        ((x, y) ∈ (diamond_square (Real.sqrt 2) rng (2 ^ k) (R, C) ps rough
            base).writes ↔ x ≤ R * 2 ^ k ∧ y ≤ C * 2 ^ k) := by
  have hp : 0 < 2 ^ k := by
    have : (1 : Nat) ≤ 2 ^ k := Nat.one_le_two_pow
    omega
  obtain ⟨lnd, lmem⟩ := dsLoop_pow2_writes (Real.sqrt 2)
    (randomsOf rng (2 ^ k) (R, C) ps rough) k R C (Real.sqrt 2)
    (cornerInitOf rng (2 ^ k) (R, C) ps base)
  refine ⟨?_, ?_, ?_⟩
  · rw [diamond_square_result, dsLoop_pow2_ok]
    rfl
  · rw [diamond_square_writes]
    refine List.Nodup.append ?_ lnd ?_
    · exact List.Nodup.map (latticeCell_injective (by omega)) (idxPairs_nodup _ _)
    · intro a hc hl
      obtain ⟨x, y⟩ := a
      rw [cornerWrites_char hp] at hc
      rw [lmem x y] at hl
      exact hl.2.2 ⟨hc.1, hc.2.1⟩
  · intro x y
    rw [diamond_square_writes, List.mem_append, cornerWrites_char hp, lmem x y]
    constructor
    · rintro (⟨-, -, hbx, hby⟩ | ⟨hbx, hby, -⟩) <;> exact ⟨hbx, hby⟩
    · rintro ⟨hbx, hby⟩
      by_cases hd : 2 ^ k ∣ x ∧ 2 ^ k ∣ y
      · exact Or.inl ⟨hd.1, hd.2, hbx, hby⟩
      · exact Or.inr ⟨hbx, hby, hd⟩

/-- C6 (witness): k = 1, R = C = 1. -/
theorem writes_once_coverage_spec_w :
    isOkB (diamond_square (Real.sqrt 2) rngZero (2 ^ 1) (1, 1) (constGrid 1)
        (constGrid 1) 0).result = true ∧
      (diamond_square (Real.sqrt 2) rngZero (2 ^ 1) (1, 1) (constGrid 1)
        (constGrid 1) 0).writes.Nodup ∧
      ∀ x y : Nat,
        ((x, y) ∈ (diamond_square (Real.sqrt 2) rngZero (2 ^ 1) (1, 1)
            (constGrid 1) (constGrid 1) 0).writes ↔
          x ≤ 1 * 2 ^ 1 ∧ y ≤ 1 * 2 ^ 1) :=
  writes_once_coverage_spec 1 1 1 (by norm_num) (by norm_num) rngZero
    (constGrid 1) (constGrid 1) 0

/-- C7: on valid input there is exactly one level record per halving, and level
t (0-indexed) enters with square size 2^(k−t), uses current_scale = √2 / 2^t at
its diamond step — so √2 at the first — and uses that value divided by √2 once
more at its square step; the next level's diamond scale is that divided by √2
again. -/
theorem scale_decay_spec (k R C : Nat) (_hR : 1 ≤ R) (_hC : 1 ≤ C)
    (rng : RNG ℝ) (ps rough : Grid ℝ) (base : ℝ) :
    (diamond_square (Real.sqrt 2) rng (2 ^ k) (R, C) ps rough base).levels.length
        = k ∧
      ∀ t, t < k →
        (diamond_square (Real.sqrt 2) rng (2 ^ k) (R, C) ps rough base).levels[t]?
          = some (2 ^ (k - t), Real.sqrt 2 / 2 ^ t,
              Real.sqrt 2 / 2 ^ t / Real.sqrt 2) := by
  obtain ⟨hlen, hget⟩ := dsLoop_pow2_levels (Real.sqrt 2)
    (randomsOf rng (2 ^ k) (R, C) ps rough) k R C (Real.sqrt 2)
    (cornerInitOf rng (2 ^ k) (R, C) ps base)
  rw [diamond_square_levels]
  refine ⟨hlen, ?_⟩
  intro t ht
  rw [hget t ht]
  have hs : Real.sqrt 2 ^ (2 * t) = 2 ^ t := by
    rw [pow_mul, Real.sq_sqrt (by norm_num : (0 : ℝ) ≤ 2)]
  have hs1 : Real.sqrt 2 ^ (2 * t + 1) = 2 ^ t * Real.sqrt 2 := by
    rw [pow_succ, hs]
  rw [hs, hs1, div_div]

/-- C7 (witness): k = 2, R = C = 1. -/
theorem scale_decay_spec_w :
    (diamond_square (Real.sqrt 2) rngZero (2 ^ 2) (1, 1) (constGrid 1)
        (constGrid 1) 0).levels.length = 2 ∧
      ∀ t, t < 2 →
        (diamond_square (Real.sqrt 2) rngZero (2 ^ 2) (1, 1) (constGrid 1)
            (constGrid 1) 0).levels[t]?
          = some (2 ^ (2 - t), Real.sqrt 2 / 2 ^ t,
              Real.sqrt 2 / 2 ^ t / Real.sqrt 2) :=
  scale_decay_spec 2 1 1 (by norm_num) (by norm_num) rngZero (constGrid 1)
    (constGrid 1) 0

/-- C9: for square_size = 1 the refinement loop body never runs: the result is
the (R+1)×(C+1) grid of pure corner values (base_level plus the corner
exponential draw, no displacement added anywhere, no level records), yet the
full-grid batch of (R+1)·(C+1) standard-normal draws is still consumed on top of
the (R+1)·(C+1) exponential draws. -/
theorem unit_square_size_spec (R C : Nat) (_hR : 1 ≤ R) (_hC : 1 ≤ C)
    (rng : RNG ℝ) (ps rough : Grid ℝ) (base : ℝ) :
    isOkB (diamond_square (Real.sqrt 2) rng 1 (R, C) ps rough base).result
        = true ∧
      (diamond_square (Real.sqrt 2) rng 1 (R, C) ps rough base).rows = R + 1 ∧
      (diamond_square (Real.sqrt 2) rng 1 (R, C) ps rough base).cols = C + 1 ∧
      (diamond_square (Real.sqrt 2) rng 1 (R, C) ps rough base).levels = [] ∧
      (diamond_square (Real.sqrt 2) rng 1 (R, C) ps rough base).draws
        = (R + 1) * (C + 1) + (R + 1) * (C + 1) ∧
      ∀ i j : Nat, i ≤ R → j ≤ C →
        (diamond_square (Real.sqrt 2) rng 1 (R, C) ps rough base).grid i j
          = base + rng.exponential (ps i j) (i * (C + 1) + j) := by
  refine ⟨?_, ?_, ?_, ?_, ?_, ?_⟩
  · rw [diamond_square_result,
      dsLoop_base (Real.sqrt 2) _ 1 R C (Real.sqrt 2) _ (by norm_num)]
    rfl
  · rw [(diamond_square_shape (Real.sqrt 2) rng 1 R C ps rough base).1]
    simp
  · rw [(diamond_square_shape (Real.sqrt 2) rng 1 R C ps rough base).2]
    simp
  · rw [diamond_square_levels,
      dsLoop_base (Real.sqrt 2) _ 1 R C (Real.sqrt 2) _ (by norm_num)]
  · rw [diamond_square_draws]
    simp
  · intro i j hi hj
    rw [diamond_square_grid,
      dsLoop_base (Real.sqrt 2) _ 1 R C (Real.sqrt 2) _ (by norm_num)]
    show cornerInitOf rng 1 (R, C) ps base i j = _
    have hv := cornerInitOf_value rng 1 (R, C) ps base i j (by norm_num) hi hj
    rw [mul_one, mul_one] at hv
    rw [hv]
    show base + rng.exponential (ps (i * 1) (j * 1)) (i * (C + 1) + j) = _
    rw [mul_one, mul_one]

/-- C9 (witness): R = C = 1. -/
theorem unit_square_size_spec_w :
    isOkB (diamond_square (Real.sqrt 2) rngZero 1 (1, 1) (constGrid 1)
        (constGrid 1) 0).result = true ∧
      (diamond_square (Real.sqrt 2) rngZero 1 (1, 1) (constGrid 1) (constGrid 1)
        0).rows = 1 + 1 ∧
      (diamond_square (Real.sqrt 2) rngZero 1 (1, 1) (constGrid 1) (constGrid 1)
        0).cols = 1 + 1 ∧
      (diamond_square (Real.sqrt 2) rngZero 1 (1, 1) (constGrid 1) (constGrid 1)
        0).levels = [] ∧
      (diamond_square (Real.sqrt 2) rngZero 1 (1, 1) (constGrid 1) (constGrid 1)
        0).draws = (1 + 1) * (1 + 1) + (1 + 1) * (1 + 1) ∧
      ∀ i j : Nat, i ≤ 1 → j ≤ 1 →
        (diamond_square (Real.sqrt 2) rngZero 1 (1, 1) (constGrid 1)
            (constGrid 1) 0).grid i j
          = 0 + rngZero.exponential (constGrid 1 i j) (i * (1 + 1) + j) :=
  unit_square_size_spec 1 1 (by norm_num) (by norm_num) rngZero (constGrid 1)
    (constGrid 1) 0

/-- C10: when the provider is configured with the ZIP format and the expected
zip archive does not exist on the filesystem, `HgtTileProvider.__call__` returns
the all-zero 3601×3601 int16 tile without attempting any read and without
raising. -/
theorem hgt_zip_missing_zero_spec (self : HgtTileProvider)
    (hfmt : self.format = Format.zip) (fsExists : String → Bool)
    (readZipEntry : String → String → Tile) (readFile : String → Tile)
    (lat lon : Int) (hmiss : fsExists (self.zipPath lat lon) = false) :
    self.call fsExists readZipEntry readFile lat lon = zeroTile ∧
      zeroTile.rows = 3601 ∧ zeroTile.cols = 3601 ∧
      ∀ i j : Nat, zeroTile.val i j = 0 := by
  refine ⟨?_, rfl, rfl, fun i j => rfl⟩
  simp only [HgtTileProvider.call, hfmt]
  rw [hmiss, if_pos rfl]

/-- C10 (witness): a concrete ZIP-configured provider over a filesystem with no
files. -/
theorem hgt_zip_missing_zero_spec_w :
    HgtTileProvider.call
        ⟨("tiles"), Format.zip, ("lower"), ("NASADEM_HGT_{lat}{lon}.zip")⟩
        (fun _ => false) (fun _ _ => zeroTile) (fun _ => zeroTile) 50 14
      = zeroTile ∧
      zeroTile.rows = 3601 ∧ zeroTile.cols = 3601 ∧
      ∀ i j : Nat, zeroTile.val i j = 0 :=
  hgt_zip_missing_zero_spec
    ⟨("tiles"), Format.zip, ("lower"), ("NASADEM_HGT_{lat}{lon}.zip")⟩ rfl
    (fun _ => false) (fun _ _ => zeroTile) (fun _ => zeroTile) 50 14 rfl

end Procgen
